import Mathlib

/-!
Verification of the deterministic spatial cache engine of `src/src/main.ts`
(a location-based collection game).

The engine is shallowly embedded:
* JS numbers used as exact decimals / tile indices are modelled as `ℚ` / `Int`;
  `Math.floor` is `Int.floor`.
* The seeded hash `luck` (imported from `luck.ts`, whose source is not part of
  the repository snapshot) is modelled from the spec: a pure function
  `String → ℚ`; the spec's codomain bound `[0, 1)` appears as a hypothesis
  where a claim depends on it.
* JS arrays mutated in place are modelled as values (`List`), except in the
  heap-explicit model `HCache`/`HMemento` below, which tracks array references
  explicitly in order to settle the aliasing behaviour of
  `restoreFromMemento` (`this.coins = memento.coins`).
* Leaflet's geodesic distance test `isCacheInRange` is modelled from the spec
  as an abstract pure predicate `inRange` of the player position and the tile.
-/

namespace Demo3

/-- `TILE_DEGREES = 1e-4` from main.ts. -/
def TILE_DEGREES : ℚ := 1 / 10000

/-- `CACHE_SPAWN_PROBABILITY = 0.1` from main.ts. -/
def CACHE_SPAWN_PROBABILITY : ℚ := 1 / 10

/-- Latitude of `OAKES_CLASSROOM` from main.ts. -/
def OAKES_LAT : ℚ := 36.98949379578401

/-- Longitude of `OAKES_CLASSROOM` from main.ts. -/
def OAKES_LNG : ℚ := -122.06277128548504

/-- A tile coordinate `(i, j)`.  The source encodes it as the string
`i + ":" + j` when keying its maps; `tileKey_inj` below shows that encoding
is injective, so keying by the pair itself is equivalent. -/
abbrev Tile := Int × Int

/-- The string key `i:j` used by `GameStateManager` and `activeCaches`. -/
def tileKey (i j : Int) : String := toString i ++ ":" ++ toString j

/-- The string `[i, j].toString()` (JS array-to-string joins with `","`)
fed to `luck` by `shouldSpawnCache`. -/
def spawnKey (i j : Int) : String := toString i ++ "," ++ toString j

/-- The string `[i, j, "initialValue"].toString()` fed to `luck` by the
`Cache` constructor. -/
def initKey (i j : Int) : String :=
  toString i ++ "," ++ toString j ++ ",initialValue"

/-- `Cache.createCoinId(serial)` from main.ts. -/
def createCoinId (i j : Int) (serial : Nat) : String :=
  toString i ++ ":" ++ toString j ++ "#" ++ toString serial

/-- The `CacheMemento` class from main.ts. -/
structure CacheMemento where
  i : Int
  j : Int
  coinCount : Int
  coins : List String
deriving DecidableEq, Repr

/-- The `Cache` class state from main.ts: tile coordinate, coin count and
coin stack.  `coinCount` is a JS number, kept as `Int` (its non-negativity
is an invariant proved below, not a typing assumption). -/
structure Cache where
  i : Int
  j : Int
  coinCount : Int
  coins : List String
deriving DecidableEq, Repr

/-- The `Cache` constructor from main.ts:
`initialCoinCount = Math.floor(luck([i, j, "initialValue"].toString()) * 100)`,
and the stack is `Array.from({length: initialCoinCount}, (_, serial) =>
createCoinId(serial))` (JS `Array.from` clamps a negative length to 0,
matching `Int.toNat`). -/
def mkCache (luck : String → ℚ) (i j : Int) : Cache :=
  let initialCoinCount : Int := ⌊luck (initKey i j) * 100⌋
  { i := i, j := j, coinCount := initialCoinCount,
    coins := (List.range initialCoinCount.toNat).map (createCoinId i j) }

/-- `Cache.createMemento()` from main.ts (`[...this.coins]` — a copy; in
this value model, copying is implicit). -/
def createMemento (c : Cache) : CacheMemento :=
  { i := c.i, j := c.j, coinCount := c.coinCount, coins := c.coins }

/-- `Cache.restoreFromMemento(memento)` from main.ts
(`this.coinCount = memento.coinCount; this.coins = memento.coins`). -/
def restoreFromMemento (c : Cache) (m : CacheMemento) : Cache :=
  { c with coinCount := m.coinCount, coins := m.coins }

/-- `Cache.collect()` from main.ts: if `coinCount > 0`, pop the last coin
(`coins.pop()`) and decrement the count, returning the coin; else return
`null` (modelled as `none`). -/
def collect (c : Cache) : Cache × Option String :=
  if 0 < c.coinCount then
    ({ c with coinCount := c.coinCount - 1, coins := c.coins.dropLast },
      c.coins.getLast?)
  else (c, none)

/-- `Cache.deposit(coinId)` from main.ts: push onto the stack and increment
the count. -/
def deposit (c : Cache) (coinId : String) : Cache :=
  { c with coinCount := c.coinCount + 1, coins := c.coins ++ [coinId] }

/-- `Cache.getCoinCount()` from main.ts. -/
def getCoinCount (c : Cache) : Int := c.coinCount

/-- The two mutating operations a caller can perform on one cache. -/
inductive CacheOp where
  | collectOp : CacheOp
  | depositOp : String → CacheOp
deriving DecidableEq, Repr

/-- Apply a single operation to a cache, keeping only the cache state. -/
def applyOp (c : Cache) : CacheOp → Cache
  | .collectOp => (collect c).1
  | .depositOp s => deposit c s

/-- Apply a sequence of operations to a cache. -/
def applyOps (c : Cache) (ops : List CacheOp) : Cache := ops.foldl applyOp c

/-- Number of deposits in a sequence of operations. -/
def numDeposits (ops : List CacheOp) : Nat :=
  ops.countP (fun op => match op with | .depositOp _ => true | _ => false)

/-- Number of successful (non-empty) collects when running a sequence of
operations from a given cache state: a collect succeeds iff the count is
positive at that point. -/
def succCollects (c : Cache) : List CacheOp → Nat
  | [] => 0
  | op :: rest =>
    (match op with
      | .collectOp => if 0 < c.coinCount then 1 else 0
      | .depositOp _ => 0) + succCollects (applyOp c op) rest

/-- The basic well-formedness of a cache: the count equals the stack length. -/
def cacheConsistent (c : Cache) : Prop := c.coinCount = c.coins.length

/-! ### Invariant preservation for the cache operations -/

theorem applyOp_collect_pos (c : Cache) (h : 0 < c.coinCount) :
    applyOp c .collectOp =
      { c with coinCount := c.coinCount - 1, coins := c.coins.dropLast } := by
  unfold applyOp collect
  rw [if_pos h]

theorem applyOp_collect_neg (c : Cache) (h : ¬ 0 < c.coinCount) :
    applyOp c .collectOp = c := by
  unfold applyOp collect
  rw [if_neg h]

theorem applyOp_deposit (c : Cache) (s : String) :
    applyOp c (.depositOp s) =
      { c with coinCount := c.coinCount + 1, coins := c.coins ++ [s] } := rfl

theorem succCollects_cons_collect (c : Cache) (rest : List CacheOp) :
    succCollects c (.collectOp :: rest) =
      (if 0 < c.coinCount then 1 else 0) +
        succCollects (applyOp c .collectOp) rest := rfl

theorem succCollects_cons_deposit (c : Cache) (s : String) (rest : List CacheOp) :
    succCollects c (.depositOp s :: rest) =
      succCollects (applyOp c (.depositOp s)) rest := by
  show 0 + _ = _
  rw [Nat.zero_add]

theorem numDeposits_cons_collect (rest : List CacheOp) :
    numDeposits (.collectOp :: rest) = numDeposits rest := by
  simp [numDeposits, List.countP_cons]

theorem numDeposits_cons_deposit (s : String) (rest : List CacheOp) :
    numDeposits (.depositOp s :: rest) = numDeposits rest + 1 := by
  simp [numDeposits, List.countP_cons]

theorem applyOp_consistent (c : Cache) (h : cacheConsistent c) (op : CacheOp) :
    cacheConsistent (applyOp c op) := by
  unfold cacheConsistent at h ⊢
  cases op with
  | collectOp =>
    by_cases hpos : 0 < c.coinCount
    · rw [applyOp_collect_pos c hpos]
      simp only [List.length_dropLast]
      omega
    · rw [applyOp_collect_neg c hpos]
      exact h
  | depositOp s =>
    rw [applyOp_deposit]
    simp only [List.length_append, List.length_cons, List.length_nil]
    omega

theorem applyOps_consistent :
    ∀ (ops : List CacheOp) (c : Cache), cacheConsistent c →
      cacheConsistent (applyOps c ops) := by
  intro ops
  induction ops with
  | nil => intro c hc; exact hc
  | cons op rest ih =>
    intro c hc
    exact ih (applyOp c op) (applyOp_consistent c hc op)

theorem conservation_aux :
    ∀ (ops : List CacheOp) (c : Cache), cacheConsistent c →
      (applyOps c ops).coinCount =
        c.coinCount + numDeposits ops - succCollects c ops := by
  intro ops
  induction ops with
  | nil => intro c _; simp [applyOps, numDeposits, succCollects]
  | cons op rest ih =>
    intro c hc
    have hstep : applyOps c (op :: rest) = applyOps (applyOp c op) rest := rfl
    have hrest := ih (applyOp c op) (applyOp_consistent c hc op)
    rw [hstep, hrest]
    cases op with
    | collectOp =>
      rw [succCollects_cons_collect, numDeposits_cons_collect]
      by_cases hpos : 0 < c.coinCount
      · rw [if_pos hpos, applyOp_collect_pos c hpos]
        push_cast
        omega
      · rw [if_neg hpos, applyOp_collect_neg c hpos]
        push_cast
        omega
    | depositOp s =>
      rw [succCollects_cons_deposit, numDeposits_cons_deposit, applyOp_deposit]
      push_cast
      omega

/-- Helper: last element of a freshly generated coin stack. -/
theorem range_map_getLast (f : Nat → String) (n : Nat) (hn : 0 < n) :
    ((List.range n).map f).getLast? = some (f (n - 1)) := by
  have h : List.range n ≠ [] := by simp; omega
  rw [List.getLast?_map, List.getLast?_eq_getLast _ h]
  simp [List.getLast_range]

/-! ### Claims C4, C5, C6 -/

/-- C4: a freshly created (never-snapshotted) cache at `(i, j)` has coin
count `⌊luck([i,j,"initialValue"]) * 100⌋`, which lies in `0..99` (given the
spec's guarantee that `luck` lands in `[0,1)`); its stack holds exactly the
identifiers `createCoinId i j serial` for `serial = 0..count-1`, in
increasing serial order with the top of the stack (last entry) carrying the
highest serial.  The construction is a pure function of `(i, j)` (and the
hash), hence identical across repeated constructions. -/
theorem C4_fresh_cache_initial_state (luck : String → ℚ) (i j : Int)
    (h0 : 0 ≤ luck (initKey i j)) (h1 : luck (initKey i j) < 1) :
    (mkCache luck i j).coinCount = ⌊luck (initKey i j) * 100⌋ ∧
    0 ≤ (mkCache luck i j).coinCount ∧
    (mkCache luck i j).coinCount ≤ 99 ∧
    (mkCache luck i j).coins =
      (List.range (mkCache luck i j).coinCount.toNat).map (createCoinId i j) ∧
    (0 < (mkCache luck i j).coinCount →
      (mkCache luck i j).coins.getLast? =
        some (createCoinId i j ((mkCache luck i j).coinCount.toNat - 1))) := by
  refine ⟨rfl, ?_, ?_, rfl, ?_⟩
  · exact Int.floor_nonneg.mpr (mul_nonneg h0 (by norm_num))
  · have : ⌊luck (initKey i j) * 100⌋ < 100 := by
      rw [Int.floor_lt]
      push_cast
      nlinarith
    show ⌊luck (initKey i j) * 100⌋ ≤ 99
    omega
  · intro hpos
    have hcc : (mkCache luck i j).coinCount = ⌊luck (initKey i j) * 100⌋ := rfl
    exact range_map_getLast (createCoinId i j) _ (by omega)

/-- Witness for C4 at the concrete hash `fun _ => 0` and tile `(0, 0)`. -/
theorem C4_witness :
    (0 : ℚ) ≤ (fun _ : String => (0 : ℚ)) (initKey 0 0) ∧
    (fun _ : String => (0 : ℚ)) (initKey 0 0) < 1 ∧
    ((mkCache (fun _ => (0 : ℚ)) 0 0).coinCount =
        ⌊(fun _ : String => (0 : ℚ)) (initKey 0 0) * 100⌋ ∧
      0 ≤ (mkCache (fun _ => (0 : ℚ)) 0 0).coinCount ∧
      (mkCache (fun _ => (0 : ℚ)) 0 0).coinCount ≤ 99 ∧
      (mkCache (fun _ => (0 : ℚ)) 0 0).coins =
        (List.range (mkCache (fun _ => (0 : ℚ)) 0 0).coinCount.toNat).map
          (createCoinId 0 0) ∧
      (0 < (mkCache (fun _ => (0 : ℚ)) 0 0).coinCount →
        (mkCache (fun _ => (0 : ℚ)) 0 0).coins.getLast? =
          some (createCoinId 0 0
            ((mkCache (fun _ => (0 : ℚ)) 0 0).coinCount.toNat - 1)))) :=
  ⟨le_refl 0, zero_lt_one,
    C4_fresh_cache_initial_state (fun _ => 0) 0 0 (le_refl 0) zero_lt_one⟩

/-- C5: on a well-formed cache, `collect` with a positive count removes and
returns the top-of-stack (last, most recently added) coin and decrements the
count by one; with count zero it returns the absent signal (`none`) and
leaves the cache (count and stack) unchanged. -/
theorem C5_collect_semantics (c : Cache) (hinv : cacheConsistent c) :
    (0 < c.coinCount →
      ∃ top, c.coins.getLast? = some top ∧
        collect c =
          ({ c with coinCount := c.coinCount - 1, coins := c.coins.dropLast },
            some top)) ∧
    (c.coinCount = 0 → collect c = (c, none)) := by
  constructor
  · intro hpos
    have hne : c.coins ≠ [] := by
      unfold cacheConsistent at hinv
      intro hc
      rw [hc] at hinv
      simp at hinv
      omega
    refine ⟨c.coins.getLast hne, List.getLast?_eq_getLast _ hne, ?_⟩
    unfold collect
    rw [if_pos hpos, List.getLast?_eq_getLast _ hne]
  · intro hz
    unfold collect
    rw [if_neg (by omega)]

/-- Witness for C5 at the concrete cache `(0,0)` with one coin `"0:0#0"`. -/
theorem C5_witness :
    cacheConsistent ⟨0, 0, 1, ["0:0#0"]⟩ ∧
    ((0 < (⟨0, 0, 1, ["0:0#0"]⟩ : Cache).coinCount →
      ∃ top, (⟨0, 0, 1, ["0:0#0"]⟩ : Cache).coins.getLast? = some top ∧
        collect ⟨0, 0, 1, ["0:0#0"]⟩ =
          ({ (⟨0, 0, 1, ["0:0#0"]⟩ : Cache) with
              coinCount := (⟨0, 0, 1, ["0:0#0"]⟩ : Cache).coinCount - 1,
              coins := (⟨0, 0, 1, ["0:0#0"]⟩ : Cache).coins.dropLast },
            some top)) ∧
    ((⟨0, 0, 1, ["0:0#0"]⟩ : Cache).coinCount = 0 →
      collect ⟨0, 0, 1, ["0:0#0"]⟩ = (⟨0, 0, 1, ["0:0#0"]⟩, none))) :=
  ⟨by unfold cacheConsistent; decide, C5_collect_semantics ⟨0, 0, 1, ["0:0#0"]⟩ (by unfold cacheConsistent; decide)⟩

/-- C6: starting from a well-formed cache, along any finite sequence of
collect/deposit operations the coin count always equals the stack length and
is never negative (at every prefix of the sequence), and the final count is
the initial count plus the number of deposits minus the number of successful
(non-empty) collects. -/
theorem C6_count_conservation (c : Cache) (hinv : cacheConsistent c)
    (ops : List CacheOp) :
    (∀ p q : List CacheOp, ops = p ++ q →
      cacheConsistent (applyOps c p) ∧ 0 ≤ (applyOps c p).coinCount) ∧
    (applyOps c ops).coinCount =
      c.coinCount + numDeposits ops - succCollects c ops := by
  constructor
  · intro p _ _
    have hp := applyOps_consistent p c hinv
    refine ⟨hp, ?_⟩
    unfold cacheConsistent at hp
    omega
  · exact conservation_aux ops c hinv

/-- Witness for C6: one deposit then two collects on a one-coin cache. -/
theorem C6_witness :
    cacheConsistent ⟨0, 0, 1, ["0:0#0"]⟩ ∧
    ((∀ p q : List CacheOp,
        [CacheOp.depositOp "x", CacheOp.collectOp, CacheOp.collectOp] = p ++ q →
        cacheConsistent (applyOps ⟨0, 0, 1, ["0:0#0"]⟩ p) ∧
          0 ≤ (applyOps ⟨0, 0, 1, ["0:0#0"]⟩ p).coinCount) ∧
      (applyOps ⟨0, 0, 1, ["0:0#0"]⟩
          [CacheOp.depositOp "x", CacheOp.collectOp, CacheOp.collectOp]).coinCount =
        (⟨0, 0, 1, ["0:0#0"]⟩ : Cache).coinCount +
          numDeposits [CacheOp.depositOp "x", CacheOp.collectOp, CacheOp.collectOp] -
          succCollects ⟨0, 0, 1, ["0:0#0"]⟩
            [CacheOp.depositOp "x", CacheOp.collectOp, CacheOp.collectOp]) :=
  ⟨by unfold cacheConsistent; decide,
    C6_count_conservation ⟨0, 0, 1, ["0:0#0"]⟩ (by unfold cacheConsistent; decide)
      [CacheOp.depositOp "x", CacheOp.collectOp, CacheOp.collectOp]⟩

/-! ### Grid coordinate mapper (C7) -/

/-- The `leaflet.LatLngBounds` rectangle built by `calculateCacheBounds`:
corner coordinates `[[lat1, long1], [lat2, long2]]`. -/
structure Bounds where
  lat1 : ℚ
  lat2 : ℚ
  long1 : ℚ
  long2 : ℚ
deriving Repr

/-- `LocationGame.calculateCacheBounds(i, j)` from main.ts. -/
def calculateCacheBounds (i j : Int) : Bounds :=
  { lat1 := i * TILE_DEGREES, lat2 := (i + 1) * TILE_DEGREES,
    long1 := j * TILE_DEGREES, long2 := (j + 1) * TILE_DEGREES }

/-- `LocationGame.latLongToGrid(lat, lng)` from main.ts:
`i = Math.floor(lat / TILE_DEGREES)`, `j = Math.floor(lng / TILE_DEGREES)`. -/
def latLongToGrid (lat lng : ℚ) : Tile :=
  (⌊lat / TILE_DEGREES⌋, ⌊lng / TILE_DEGREES⌋)

/-- A point lies in a bounds rectangle (inclusive, as leaflet's
`LatLngBounds.contains` treats the rectangle). -/
def boundsContain (b : Bounds) (lat lng : ℚ) : Prop :=
  b.lat1 ≤ lat ∧ lat ≤ b.lat2 ∧ b.long1 ≤ lng ∧ lng ≤ b.long2

/-- A point lies strictly inside a bounds rectangle. -/
def strictlyInside (b : Bounds) (lat lng : ℚ) : Prop :=
  b.lat1 < lat ∧ lat < b.lat2 ∧ b.long1 < lng ∧ lng < b.long2

theorem TILE_DEGREES_pos : (0 : ℚ) < TILE_DEGREES := by
  unfold TILE_DEGREES; norm_num

/-- Helper: the floor-division tile index is `i` exactly on `[i*T, (i+1)*T)`. -/
theorem floor_div_tile_eq (x : ℚ) (i : Int)
    (h1 : (i : ℚ) * TILE_DEGREES ≤ x) (h2 : x < ((i : ℚ) + 1) * TILE_DEGREES) :
    ⌊x / TILE_DEGREES⌋ = i := by
  have hT := TILE_DEGREES_pos
  have hle : (i : ℚ) ≤ x / TILE_DEGREES := by
    rw [le_div_iff₀ hT]
    exact h1
  have hlt : x / TILE_DEGREES < ((i + 1 : Int) : ℚ) := by
    rw [div_lt_iff₀ hT]
    push_cast
    exact h2
  have ha := Int.le_floor.mpr hle
  have hb := Int.floor_lt.mpr hlt
  omega

/-- C7: grid round-trip.  (a) For every `(lat, lng)`, the bounds of the tile
`latLongToGrid lat lng` contain the point (indeed with room to spare on the
max side).  (b) For every integer pair `(i, j)`, `latLongToGrid` maps any
point strictly inside `calculateCacheBounds i j` back to `(i, j)`. -/
theorem C7_grid_round_trip :
    (∀ lat lng : ℚ,
      boundsContain
        (calculateCacheBounds (latLongToGrid lat lng).1 (latLongToGrid lat lng).2)
        lat lng) ∧
    (∀ (i j : Int) (lat lng : ℚ),
      strictlyInside (calculateCacheBounds i j) lat lng →
      latLongToGrid lat lng = (i, j)) := by
  have hT := TILE_DEGREES_pos
  constructor
  · intro lat lng
    unfold boundsContain calculateCacheBounds latLongToGrid
    simp only
    have h1 : (⌊lat / TILE_DEGREES⌋ : ℚ) ≤ lat / TILE_DEGREES := Int.floor_le _
    have h2 : lat / TILE_DEGREES < ⌊lat / TILE_DEGREES⌋ + 1 := Int.lt_floor_add_one _
    have h3 : (⌊lng / TILE_DEGREES⌋ : ℚ) ≤ lng / TILE_DEGREES := Int.floor_le _
    have h4 : lng / TILE_DEGREES < ⌊lng / TILE_DEGREES⌋ + 1 := Int.lt_floor_add_one _
    rw [le_div_iff₀ hT] at h1 h3
    rw [div_lt_iff₀ hT] at h2 h4
    constructor
    · linarith
    constructor
    · nlinarith
    constructor
    · linarith
    · nlinarith
  · intro i j lat lng hin
    obtain ⟨ha, hb, hc, hd⟩ := hin
    unfold calculateCacheBounds at ha hb hc hd
    simp only at ha hb hc hd
    unfold latLongToGrid
    rw [floor_div_tile_eq lat i (le_of_lt ha) hb,
      floor_div_tile_eq lng j (le_of_lt hc) hd]

/-- Witness for C7(b): the center of tile `(0, 0)` maps back to `(0, 0)`. -/
theorem C7_witness :
    strictlyInside (calculateCacheBounds 0 0) (1 / 20000) (1 / 20000) ∧
    latLongToGrid (1 / 20000) (1 / 20000) = (0, 0) :=
  ⟨by unfold strictlyInside calculateCacheBounds TILE_DEGREES; norm_num,
    C7_grid_round_trip.2 0 0 (1 / 20000) (1 / 20000)
      (by unfold strictlyInside calculateCacheBounds TILE_DEGREES; norm_num)⟩

/-! ### Cache existence oracle (C9) and injectivity of the key strings

The oracle is `LocationGame.shouldSpawnCache`:
`luck([i, j].toString()) < CACHE_SPAWN_PROBABILITY`.  The key string is the
decimal rendering of the two integers joined by `","`; we prove that this
encoding is injective over integer pairs. -/

/-- `LocationGame.shouldSpawnCache(i, j)` from main.ts. -/
def shouldSpawnCache (luck : String → ℚ) (i j : Int) : Bool :=
  luck (spawnKey i j) < CACHE_SPAWN_PROBABILITY

/-- The characters `Nat.digitChar` can produce. -/
def digitChars : List Char := "0123456789abcdef*".data

theorem digitChar_mem (m : Nat) : Nat.digitChar m ∈ digitChars := by
  by_cases h : m < 16
  · interval_cases m <;> decide
  · have h17 : Nat.digitChar m = '*' := by
      unfold Nat.digitChar
      repeat rw [if_neg (by omega)]
    rw [h17]; decide

theorem toDigitsCore_subset :
    ∀ (fuel n : Nat) (ds : List Char) (c : Char),
      c ∈ Nat.toDigitsCore 10 fuel n ds → c ∈ digitChars ∨ c ∈ ds := by
  intro fuel
  induction fuel with
  | zero => intro n ds c h; exact Or.inr h
  | succ f ih =>
    intro n ds c h
    by_cases h0 : n / 10 = 0
    · simp only [Nat.toDigitsCore, h0, if_pos] at h
      rcases List.mem_cons.mp h with h1 | h1
      · exact Or.inl (h1 ▸ digitChar_mem (n % 10))
      · exact Or.inr h1
    · simp only [Nat.toDigitsCore, h0, if_neg, if_false] at h
      rcases ih (n / 10) (Nat.digitChar (n % 10) :: ds) c h with h1 | h1
      · exact Or.inl h1
      · rcases List.mem_cons.mp h1 with h2 | h2
        · exact Or.inl (h2 ▸ digitChar_mem (n % 10))
        · exact Or.inr h2

theorem repr_chars (n : Nat) (c : Char) (h : c ∈ (Nat.repr n).data) :
    c ∈ digitChars := by
  have h2 : c ∈ Nat.toDigitsCore 10 (n + 1) n [] := h
  rcases toDigitsCore_subset (n + 1) n [] c h2 with h3 | h3
  · exact h3
  · simp at h3

theorem int_toString_ofNat (m : Nat) : toString (Int.ofNat m) = Nat.repr m := rfl

theorem int_toString_negSucc (m : Nat) :
    toString (Int.negSucc m) = "-" ++ Nat.repr (m + 1) := rfl

theorem string_data_append (s t : String) : (s ++ t).data = s.data ++ t.data := by
  cases s; cases t; rfl

theorem string_ext (s t : String) (h : s.data = t.data) : s = t := by
  cases s; cases t; exact congrArg String.mk h

theorem intStr_chars (i : Int) (c : Char) (h : c ∈ (toString i).data) :
    c = '-' ∨ c ∈ digitChars := by
  cases i with
  | ofNat m => exact Or.inr (repr_chars m c h)
  | negSucc m =>
    rw [int_toString_negSucc, string_data_append] at h
    rcases List.mem_append.mp h with h1 | h1
    · left
      simpa using h1
    · exact Or.inr (repr_chars (m + 1) c h1)

/-- Splitting at a separator character absent from both leading segments is
unambiguous. -/
theorem sep_split (c : Char) :
    ∀ (l1 r1 l2 r2 : List Char), c ∉ l1 → c ∉ r1 →
      l1 ++ c :: l2 = r1 ++ c :: r2 → l1 = r1 ∧ l2 = r2 := by
  intro l1
  induction l1 with
  | nil =>
    intro r1 l2 r2 _ hr h
    cases r1 with
    | nil => simpa using h
    | cons x r1' =>
      exfalso
      simp only [List.nil_append, List.cons_append, List.cons.injEq] at h
      exact hr (h.1 ▸ List.mem_cons_self x r1')
  | cons a l1' ih =>
    intro r1 l2 r2 hl hr h
    cases r1 with
    | nil =>
      exfalso
      simp only [List.nil_append, List.cons_append, List.cons.injEq] at h
      exact hl (h.1 ▸ List.mem_cons_self a l1')
    | cons b r1' =>
      simp only [List.cons_append, List.cons.injEq] at h
      have hl' : c ∉ l1' := fun hx => hl (List.mem_cons_of_mem a hx)
      have hr' : c ∉ r1' := fun hx => hr (List.mem_cons_of_mem b hx)
      obtain ⟨h1, h2⟩ := ih r1' l2 r2 hl' hr' h.2
      exact ⟨by rw [h.1, h1], h2⟩

/-! Injectivity of the decimal rendering, via a decoding function. -/

/-- Decimal digit value of a character (`'0'` ↦ 0, …, `'9'` ↦ 9). -/
def charToDigit (c : Char) : Nat := c.toNat - 48

/-- Decode a decimal digit string back to the number it denotes. -/
def decodeDigits (l : List Char) : Nat :=
  l.foldl (fun a c => 10 * a + charToDigit c) 0

theorem charToDigit_digitChar (m : Nat) (h : m < 10) :
    charToDigit (Nat.digitChar m) = m := by
  interval_cases m <;> decide

theorem decode_append_last (l : List Char) (c : Char) :
    decodeDigits (l ++ [c]) = 10 * decodeDigits l + charToDigit c := by
  unfold decodeDigits
  rw [List.foldl_append]
  rfl

theorem toDigitsCore_append :
    ∀ (fuel n : Nat) (ds : List Char),
      Nat.toDigitsCore 10 fuel n ds = Nat.toDigitsCore 10 fuel n [] ++ ds := by
  intro fuel
  induction fuel with
  | zero => intro n ds; simp [Nat.toDigitsCore]
  | succ f ih =>
    intro n ds
    by_cases h0 : n / 10 = 0
    · simp [Nat.toDigitsCore, h0]
    · simp only [Nat.toDigitsCore, h0, if_neg, if_false]
      rw [ih (n / 10) (Nat.digitChar (n % 10) :: ds),
        ih (n / 10) [Nat.digitChar (n % 10)], List.append_assoc]
      rfl

theorem toDigitsCore_fuel :
    ∀ (n f1 f2 : Nat) (ds : List Char), n < f1 → n < f2 →
      Nat.toDigitsCore 10 f1 n ds = Nat.toDigitsCore 10 f2 n ds := by
  intro n
  induction n using Nat.strong_induction_on with
  | _ n ih =>
    intro f1 f2 ds h1 h2
    obtain ⟨g1, rfl⟩ : ∃ g, f1 = g + 1 := ⟨f1 - 1, by omega⟩
    obtain ⟨g2, rfl⟩ : ∃ g, f2 = g + 1 := ⟨f2 - 1, by omega⟩
    by_cases h0 : n / 10 = 0
    · simp [Nat.toDigitsCore, h0]
    · simp only [Nat.toDigitsCore, h0, if_neg, if_false]
      have hdiv : n / 10 < n := Nat.div_lt_self (by omega) (by norm_num)
      exact ih (n / 10) hdiv g1 g2 _ (by omega) (by omega)

theorem toDigits_small (n : Nat) (h : n < 10) :
    Nat.toDigits 10 n = [Nat.digitChar n] := by
  show Nat.toDigitsCore 10 (n + 1) n [] = _
  have h0 : n / 10 = 0 := Nat.div_eq_of_lt h
  simp [Nat.toDigitsCore, h0, Nat.mod_eq_of_lt h]

theorem toDigits_large (n : Nat) (h : 10 ≤ n) :
    Nat.toDigits 10 n =
      Nat.toDigits 10 (n / 10) ++ [Nat.digitChar (n % 10)] := by
  show Nat.toDigitsCore 10 (n + 1) n [] = _
  have h0 : n / 10 ≠ 0 := by
    have := Nat.div_pos h (by norm_num : (0:Nat) < 10)
    omega
  simp only [Nat.toDigitsCore, h0, if_neg, if_false]
  rw [toDigitsCore_append n (n / 10) [Nat.digitChar (n % 10)]]
  have hdiv : n / 10 < n := Nat.div_lt_self (by omega) (by norm_num)
  rw [toDigitsCore_fuel (n / 10) n (n / 10 + 1) [] hdiv (by omega)]
  rfl

theorem decode_toDigits : ∀ n : Nat, decodeDigits (Nat.toDigits 10 n) = n := by
  intro n
  induction n using Nat.strong_induction_on with
  | _ n ih =>
    by_cases h : n < 10
    · rw [toDigits_small n h]
      show 10 * 0 + charToDigit (Nat.digitChar n) = n
      rw [charToDigit_digitChar n h]
      omega
    · push_neg at h
      rw [toDigits_large n h, decode_append_last]
      have hdiv : n / 10 < n := Nat.div_lt_self (by omega) (by norm_num)
      rw [ih (n / 10) hdiv,
        charToDigit_digitChar (n % 10) (Nat.mod_lt n (by norm_num))]
      omega

theorem natRepr_inj (a b : Nat) (h : Nat.repr a = Nat.repr b) : a = b := by
  have h2 : Nat.toDigits 10 a = Nat.toDigits 10 b := congrArg String.data h
  have := decode_toDigits a
  rw [h2, decode_toDigits b] at this
  omega

theorem intStr_inj (a b : Int) (h : toString a = toString b) : a = b := by
  have hdash : ('-' : Char) ∉ digitChars := by decide
  cases a with
  | ofNat m =>
    cases b with
    | ofNat k =>
      rw [int_toString_ofNat, int_toString_ofNat] at h
      exact congrArg Int.ofNat (natRepr_inj m k h)
    | negSucc k =>
      exfalso
      rw [int_toString_ofNat, int_toString_negSucc] at h
      have hd := congrArg String.data h
      rw [string_data_append] at hd
      have hmem : '-' ∈ (Nat.repr m).data := by
        rw [hd]
        exact List.mem_append.mpr (Or.inl (by simp))
      exact hdash (repr_chars m '-' hmem)
  | negSucc m =>
    cases b with
    | ofNat k =>
      exfalso
      rw [int_toString_ofNat, int_toString_negSucc] at h
      have hd := congrArg String.data h.symm
      rw [string_data_append] at hd
      have hmem : '-' ∈ (Nat.repr k).data := by
        rw [hd]
        exact List.mem_append.mpr (Or.inl (by simp))
      exact hdash (repr_chars k '-' hmem)
    | negSucc k =>
      rw [int_toString_negSucc, int_toString_negSucc] at h
      have hd := congrArg String.data h
      rw [string_data_append, string_data_append] at hd
      have hd2 : (Nat.repr (m + 1)).data = (Nat.repr (k + 1)).data := by
        have : ("-" : String).data = ['-'] := rfl
        rw [this] at hd
        simpa using hd
      have hmk := natRepr_inj (m + 1) (k + 1) (string_ext _ _ hd2)
      have : m = k := by omega
      rw [this]

/-- Joining two decimal integer renderings with a separator that is neither a
digit character nor `'-'` is injective over integer pairs. -/
theorem sep_key_inj (sep : Char) (sepStr : String) (hstr : sepStr.data = [sep])
    (hs1 : sep ∉ digitChars) (hs2 : sep ≠ '-') (i j i' j' : Int)
    (h : toString i ++ sepStr ++ toString j = toString i' ++ sepStr ++ toString j') :
    i = i' ∧ j = j' := by
  have hnotin : ∀ k : Int, sep ∉ (toString k).data := by
    intro k hk
    rcases intStr_chars k sep hk with h1 | h1
    · exact hs2 h1
    · exact hs1 h1
  have hd := congrArg String.data h
  rw [string_data_append, string_data_append, string_data_append,
    string_data_append, hstr, List.append_assoc, List.append_assoc] at hd
  simp only [List.cons_append, List.nil_append] at hd
  obtain ⟨h1, h2⟩ :=
    sep_split sep (toString i).data (toString i').data (toString j).data
      (toString j').data (hnotin i) (hnotin i') hd
  exact ⟨intStr_inj i i' (string_ext _ _ h1), intStr_inj j j' (string_ext _ _ h2)⟩

/-- The spawn-oracle key `"i,j"` is injective over integer pairs. -/
theorem spawnKey_inj (i j i' j' : Int) (h : spawnKey i j = spawnKey i' j') :
    i = i' ∧ j = j' :=
  sep_key_inj ',' "," rfl (by decide) (by decide) i j i' j' h

/-- The map key `"i:j"` used for the active-cache map and the snapshot store
is injective over integer pairs; keying the maps by the pair `(i, j)` in this
embedding is therefore equivalent to the source's string keys. -/
theorem tileKey_inj (i j i' j' : Int) (h : tileKey i j = tileKey i' j') :
    i = i' ∧ j = j' :=
  sep_key_inj ':' ":" rfl (by decide) (by decide) i j i' j' h

/-- C9: the existence oracle returns exactly
`luck(canonicalKey(i,j)) < CACHE_SPAWN_PROBABILITY`, and the canonical key
construction is injective over integer pairs — distinct pairs always produce
distinct key strings — so the oracle is a well-defined deterministic function
of the pair. -/
theorem C9_existence_oracle (luck : String → ℚ) (i j : Int) :
    (shouldSpawnCache luck i j = true ↔
      luck (spawnKey i j) < CACHE_SPAWN_PROBABILITY) ∧
    (∀ i' j' : Int, spawnKey i j = spawnKey i' j' → i = i' ∧ j = j') := by
  constructor
  · unfold shouldSpawnCache
    exact decide_eq_true_iff
  · intro i' j' h
    exact spawnKey_inj i j i' j' h

/-- Witness for C9 at the hash `fun _ => 0` and the pair `(1, 23)` (the
spec's collision example shape). -/
theorem C9_witness :
    spawnKey 1 23 = spawnKey 1 23 ∧
    (shouldSpawnCache (fun _ => (0 : ℚ)) 1 23 = true ↔
      (fun _ : String => (0 : ℚ)) (spawnKey 1 23) < CACHE_SPAWN_PROBABILITY) ∧
    ((1 : Int) = 1 ∧ (23 : Int) = 23) :=
  ⟨rfl, (C9_existence_oracle (fun _ => 0) 1 23).1,
    (C9_existence_oracle (fun _ => 0) 1 23).2 1 23 rfl⟩

/-! ### Heap-explicit model of `Cache`/`CacheMemento` (C2)

JS arrays are mutable objects passed by reference.  `createMemento` copies
the coin array (`[...this.coins]`), but `restoreFromMemento` installs the
memento's array by reference (`this.coins = memento.coins`).  To settle the
copy-semantics claim we re-embed the two classes with the array heap made
explicit: a reference is an index into a list of arrays, `heapAlloc` models
array creation, and the in-place `push`/`pop` of `deposit`/`collect` are
`heapSet` at the cache's reference. -/

/-- The array heap: reference `r` denotes the array at index `r`. -/
abbrev Heap := List (List String)

/-- Read the array behind a reference. -/
def heapGet (h : Heap) (r : Nat) : List String := h.getD r []

/-- Overwrite the array behind a reference (in-place array mutation). -/
def heapSet (h : Heap) (r : Nat) (v : List String) : Heap := h.set r v

/-- Allocate a fresh array, returning the new heap and the reference. -/
def heapAlloc (h : Heap) (v : List String) : Heap × Nat := (h ++ [v], h.length)

/-- `Cache` with its coin array held by reference. -/
structure HCache where
  i : Int
  j : Int
  coinCount : Int
  coinsRef : Nat
deriving DecidableEq, Repr

/-- `CacheMemento` with its coin array held by reference. -/
structure HMemento where
  i : Int
  j : Int
  coinCount : Int
  coinsRef : Nat
deriving DecidableEq, Repr

/-- `Cache.createMemento()`: `new CacheMemento(i, j, coinCount, [...coins])` —
the spread allocates a fresh copy of the coin array. -/
def hCreateMemento (h : Heap) (c : HCache) : Heap × HMemento :=
  let a := heapAlloc h (heapGet h c.coinsRef)
  (a.1, { i := c.i, j := c.j, coinCount := c.coinCount, coinsRef := a.2 })

/-- `Cache.restoreFromMemento(memento)`: `this.coinCount = memento.coinCount;
this.coins = memento.coins` — the coin array is installed by REFERENCE, with
no copy. -/
def hRestoreFromMemento (c : HCache) (m : HMemento) : HCache :=
  { c with coinCount := m.coinCount, coinsRef := m.coinsRef }

/-- `Cache.collect()` in the heap model: `coins.pop()` mutates the array
behind the cache's reference in place. -/
def hCollect (h : Heap) (c : HCache) : Heap × HCache × Option String :=
  if 0 < c.coinCount then
    (heapSet h c.coinsRef (heapGet h c.coinsRef).dropLast,
      { c with coinCount := c.coinCount - 1 },
      (heapGet h c.coinsRef).getLast?)
  else (h, c, none)

/-- `Cache.deposit(coinId)` in the heap model: `coins.push(coinId)` mutates
the array behind the cache's reference in place. -/
def hDeposit (h : Heap) (c : HCache) (coinId : String) : Heap × HCache :=
  (heapSet h c.coinsRef (heapGet h c.coinsRef ++ [coinId]),
    { c with coinCount := c.coinCount + 1 })

/-- One collect/deposit step in the heap model. -/
def applyHOp (p : Heap × HCache) : CacheOp → Heap × HCache
  | .collectOp => ((hCollect p.1 p.2).1, (hCollect p.1 p.2).2.1)
  | .depositOp s => hDeposit p.1 p.2 s

/-- A sequence of collect/deposit steps in the heap model. -/
def applyHOps (p : Heap × HCache) (ops : List CacheOp) : Heap × HCache :=
  ops.foldl applyHOp p

theorem applyHOp_coinsRef (p : Heap × HCache) (op : CacheOp) :
    (applyHOp p op).2.coinsRef = p.2.coinsRef := by
  cases op with
  | collectOp =>
    show ((hCollect p.1 p.2).2.1).coinsRef = _
    unfold hCollect
    split <;> rfl
  | depositOp s => rfl

theorem heapGet_heapSet_ne (h : Heap) (r r' : Nat) (v : List String)
    (hne : r ≠ r') : heapGet (heapSet h r v) r' = heapGet h r' := by
  unfold heapGet heapSet
  simp [List.getD, List.getElem?_set_ne hne]

theorem applyHOp_frame (p : Heap × HCache) (op : CacheOp) (r : Nat)
    (hne : r ≠ p.2.coinsRef) : heapGet (applyHOp p op).1 r = heapGet p.1 r := by
  cases op with
  | collectOp =>
    show heapGet (hCollect p.1 p.2).1 r = _
    unfold hCollect
    split
    · exact heapGet_heapSet_ne _ _ _ _ (fun hx => hne hx.symm)
    · rfl
  | depositOp s => exact heapGet_heapSet_ne _ _ _ _ (fun hx => hne hx.symm)

theorem applyHOps_frame :
    ∀ (ops : List CacheOp) (p : Heap × HCache) (r : Nat),
      r ≠ p.2.coinsRef → heapGet (applyHOps p ops).1 r = heapGet p.1 r := by
  intro ops
  induction ops with
  | nil => intro p r _; rfl
  | cons op rest ih =>
    intro p r hne
    have hstep : applyHOps p (op :: rest) = applyHOps (applyHOp p op) rest := rfl
    rw [hstep, ih (applyHOp p op) r (by rw [applyHOp_coinsRef]; exact hne),
      applyHOp_frame p op r hne]

/-- The C2 claim fails on the code: after `m := createMemento` and
`restoreFromMemento m`, the cache's coin array IS the snapshot's array
(`coinsRef` coincide), and a subsequent `deposit` mutates the snapshot's
recorded stack in place.  Concrete run: cache `(0,0)` with stack
`["0:0#0"]`; snapshot; restore; deposit `"x"`: the snapshot's stack has
become `["0:0#0", "x"]`. -/
theorem C2_counterexample :
    (hRestoreFromMemento ⟨0, 0, 1, 0⟩
        (hCreateMemento [["0:0#0"]] ⟨0, 0, 1, 0⟩).2).coinsRef =
      (hCreateMemento [["0:0#0"]] ⟨0, 0, 1, 0⟩).2.coinsRef ∧
    heapGet
        (hDeposit (hCreateMemento [["0:0#0"]] ⟨0, 0, 1, 0⟩).1
          (hRestoreFromMemento ⟨0, 0, 1, 0⟩
            (hCreateMemento [["0:0#0"]] ⟨0, 0, 1, 0⟩).2) "x").1
        (hCreateMemento [["0:0#0"]] ⟨0, 0, 1, 0⟩).2.coinsRef =
      ["0:0#0", "x"] ∧
    heapGet (hCreateMemento [["0:0#0"]] ⟨0, 0, 1, 0⟩).1
        (hCreateMemento [["0:0#0"]] ⟨0, 0, 1, 0⟩).2.coinsRef =
      ["0:0#0"] := by
  refine ⟨rfl, ?_, rfl⟩
  decide

/-- C2 amended: `createMemento` itself has copy semantics — the snapshot
records a copy of the stack taken at snapshot time, and no subsequent
sequence of collect/deposit operations on the cache (with no intervening
`restoreFromMemento`) ever alters the snapshot's recorded stack or count.
However, `restoreFromMemento m` installs `m`'s stack into the cache by
reference, so a collect/deposit performed after
restoring from `m` mutates `m`'s recorded stack (the recorded count is a
primitive field and stays unaffected). -/
theorem C2_snapshot_copy_semantics (h : Heap) (c : HCache)
    (hr : c.coinsRef < h.length) (ops : List CacheOp) :
    heapGet (hCreateMemento h c).1 (hCreateMemento h c).2.coinsRef =
      heapGet h c.coinsRef ∧
    (hCreateMemento h c).2.coinCount = c.coinCount ∧
    heapGet (applyHOps ((hCreateMemento h c).1, c) ops).1
        (hCreateMemento h c).2.coinsRef =
      heapGet (hCreateMemento h c).1 (hCreateMemento h c).2.coinsRef := by
  have href : (hCreateMemento h c).2.coinsRef = h.length := rfl
  have hget : heapGet (hCreateMemento h c).1 (hCreateMemento h c).2.coinsRef =
      heapGet h c.coinsRef := by
    show heapGet (h ++ [heapGet h c.coinsRef]) h.length = heapGet h c.coinsRef
    unfold heapGet
    simp [List.getD]
  refine ⟨hget, rfl, ?_⟩
  exact applyHOps_frame ops ((hCreateMemento h c).1, c)
    (hCreateMemento h c).2.coinsRef
    (by show h.length ≠ c.coinsRef; omega)

/-- Witness for the amended C2 at a one-coin cache and a single deposit. -/
theorem C2_witness :
    (⟨0, 0, 1, 0⟩ : HCache).coinsRef < ([["0:0#0"]] : Heap).length ∧
    (heapGet (hCreateMemento [["0:0#0"]] ⟨0, 0, 1, 0⟩).1
        (hCreateMemento [["0:0#0"]] ⟨0, 0, 1, 0⟩).2.coinsRef =
      heapGet [["0:0#0"]] (⟨0, 0, 1, 0⟩ : HCache).coinsRef ∧
    (hCreateMemento [["0:0#0"]] ⟨0, 0, 1, 0⟩).2.coinCount =
      (⟨0, 0, 1, 0⟩ : HCache).coinCount ∧
    heapGet
        (applyHOps ((hCreateMemento [["0:0#0"]] ⟨0, 0, 1, 0⟩).1, ⟨0, 0, 1, 0⟩)
          [CacheOp.depositOp "x"]).1
        (hCreateMemento [["0:0#0"]] ⟨0, 0, 1, 0⟩).2.coinsRef =
      heapGet (hCreateMemento [["0:0#0"]] ⟨0, 0, 1, 0⟩).1
        (hCreateMemento [["0:0#0"]] ⟨0, 0, 1, 0⟩).2.coinsRef) :=
  ⟨by decide,
    C2_snapshot_copy_semantics [["0:0#0"]] ⟨0, 0, 1, 0⟩ (by decide)
      [CacheOp.depositOp "x"]⟩

/-! ### The game state machine (C1, C3, C8, C10)

`LocationGame` keeps the player state, the active-cache map and the
`GameStateManager` snapshot store.  The source keys both maps by the string
`i + ":" + j`; by `tileKey_inj` that encoding is injective over integer
pairs, so the maps are modelled as association lists keyed by the pair
itself (JS `Map` semantics: insertion order, unique keys, `set` overwrites
in place).  `isCacheInRange` compares leaflet's geodesic distance from the
player to the tile center against `CACHE_VISIBILITY_RADIUS * 111320`;
leaflet's spherical distance is external to the repository, so — modelled
from the spec — the whole test is an abstract pure predicate `inRange` of
the player position and the tile. -/

/-- Association-list lookup keyed by tile (JS `Map.get`). -/
def lookupA {α : Type} : List (Tile × α) → Tile → Option α
  | [], _ => none
  | e :: rest, t => if e.1 = t then some e.2 else lookupA rest t

/-- JS `Map.has`. -/
def hasKey {α : Type} (l : List (Tile × α)) (t : Tile) : Bool :=
  (lookupA l t).isSome

/-- Replace the value stored at an existing key — the in-place mutation of
the cache object found by `Map.get`. -/
def updateMapA {α : Type} : List (Tile × α) → Tile → α → List (Tile × α)
  | [], _, _ => []
  | e :: rest, t, v =>
    if e.1 = t then (e.1, v) :: rest else e :: updateMapA rest t v

/-- JS `Map.set`: overwrite in place if the key is present, else append. -/
def upsertA {α : Type} : List (Tile × α) → Tile → α → List (Tile × α)
  | [], t, v => [(t, v)]
  | e :: rest, t, v => if e.1 = t then (t, v) :: rest else e :: upsertA rest t v

/-- The `LocationGame` state: player balance, player position, the active
cache map, and the `GameStateManager` store.  Map rendering, markers,
popups, movement history and geolocation are presentation concerns with no
bearing on the cache engine and are omitted. -/
structure GameState where
  playerCoins : Int
  playerLat : ℚ
  playerLng : ℚ
  activeCaches : List (Tile × Cache)
  cacheStates : List (Tile × CacheMemento)
deriving Repr

/-- `GameStateManager.saveCache(cache)` from main.ts: upsert the memento of
the cache under the key built from the cache's own tile fields. -/
def saveCache (store : List (Tile × CacheMemento)) (c : Cache) :
    List (Tile × CacheMemento) :=
  upsertA store (c.i, c.j) (createMemento c)

/-- The cache produced by `LocationGame.spawnCache(i, j)`: a fresh
`new Cache(i, j)`, restored from the stored memento when one exists. -/
def spawnedCache (luck : String → ℚ) (store : List (Tile × CacheMemento))
    (i j : Int) : Cache :=
  match lookupA store (i, j) with
  | some m => restoreFromMemento (mkCache luck i j) m
  | none => mkCache luck i j

/-- The candidate tiles scanned by the admission loop of
`updateVisibleCaches`: `latLongToGrid(playerLat + i*TILE_DEGREES,
playerLng + j*TILE_DEGREES)` for `i, j` from `-NEIGHBORHOOD_SIZE` to
`NEIGHBORHOOD_SIZE` (row-major). -/
def candidateTiles (lat lng : ℚ) : List Tile :=
  (List.range 17).flatMap (fun a =>
    (List.range 17).map (fun b =>
      latLongToGrid (lat + ((a : Int) - 8) * TILE_DEGREES)
        (lng + ((b : Int) - 8) * TILE_DEGREES)))

/-- The admission pass of `updateVisibleCaches`, recursing over the
candidate tiles: skip when the tile is already active or the oracle says no
cache; otherwise, when in range, `spawnCache` appends the (possibly
restored) cache to the active map.  `spawnCache` touches nothing but the
active map, so the loop carries the active map alone. -/
def admitLoop (luck : String → ℚ) (inRange : ℚ → ℚ → Tile → Bool)
    (lat lng : ℚ) (store : List (Tile × CacheMemento)) :
    List (Tile × Cache) → List Tile → List (Tile × Cache)
  | acs, [] => acs
  | acs, t :: rest =>
    if hasKey acs t || !shouldSpawnCache luck t.1 t.2 then
      admitLoop luck inRange lat lng store acs rest
    else if inRange lat lng t then
      admitLoop luck inRange lat lng store
        (acs ++ [(t, spawnedCache luck store t.1 t.2)]) rest
    else
      admitLoop luck inRange lat lng store acs rest

/-- `LocationGame.updateVisibleCaches()` from main.ts: the eviction pass
removes the active entries whose tile is out of range (marker removal is
presentation), then the admission pass scans the neighborhood. -/
def updateVisibleCaches (luck : String → ℚ) (inRange : ℚ → ℚ → Tile → Bool)
    (s : GameState) : GameState :=
  let acs :=
    admitLoop luck inRange s.playerLat s.playerLng s.cacheStates
      (s.activeCaches.filter (fun e => inRange s.playerLat s.playerLng e.1))
      (candidateTiles s.playerLat s.playerLng)
  { s with activeCaches := acs }

/-- `LocationGame.updatePlayerPosition(lat, lng)` from main.ts (marker,
polyline and map view updates are presentation). -/
def updatePlayerPosition (luck : String → ℚ) (inRange : ℚ → ℚ → Tile → Bool)
    (lat lng : ℚ) (s : GameState) : GameState :=
  updateVisibleCaches luck inRange { s with playerLat := lat, playerLng := lng }

/-- `LocationGame.movePlayer(latOffset, lngOffset)` from main.ts (the
auto-location guard is presentation). -/
def movePlayer (luck : String → ℚ) (inRange : ℚ → ℚ → Tile → Bool)
    (latOffset lngOffset : ℚ) (s : GameState) : GameState :=
  updateVisibleCaches luck inRange
    { s with playerLat := s.playerLat + latOffset,
             playerLng := s.playerLng + lngOffset }

/-- The coin identifier minted by `handleDepositClick`:
`deposited:i:j:Date.now()`.  The wall-clock reading is an input `ts`. -/
def depositCoinId (i j : Int) (ts : String) : String :=
  "deposited:" ++ toString i ++ ":" ++ toString j ++ ":" ++ ts

/-- `LocationGame.handleCollectClick` from main.ts, addressed by tile: the
popup's cache is the one in the active map.  `collect` runs first (mutating
the cache in place); only a truthy coin id (non-null, non-empty) increments
the balance and saves the cache to the store. -/
def handleCollectClick (s : GameState) (t : Tile) : GameState :=
  match lookupA s.activeCaches t with
  | none => s
  | some c =>
    let r := collect c
    let s1 := { s with activeCaches := updateMapA s.activeCaches t r.1 }
    match r.2 with
    | some coin =>
      if coin = "" then s1
      else
        { s1 with playerCoins := s1.playerCoins + 1,
                  cacheStates := saveCache s1.cacheStates r.1 }
    | none => s1

/-- `LocationGame.handleDepositClick` from main.ts, addressed by tile: with
a positive balance, deposit a freshly minted coin, decrement the balance and
save the cache to the store. -/
def handleDepositClick (s : GameState) (t : Tile) (ts : String) : GameState :=
  match lookupA s.activeCaches t with
  | none => s
  | some c =>
    if 0 < s.playerCoins then
      let c2 := deposit c (depositCoinId c.i c.j ts)
      { s with activeCaches := updateMapA s.activeCaches t c2,
               playerCoins := s.playerCoins - 1,
               cacheStates := saveCache s.cacheStates c2 }
    else s

/-- A user gesture on one cache's popup. -/
inductive ClickEv where
  | collectClick : ClickEv
  | depositClick : String → ClickEv

/-- Apply one popup gesture to the cache at tile `t`. -/
def applyClick (s : GameState) (t : Tile) : ClickEv → GameState
  | .collectClick => handleCollectClick s t
  | .depositClick ts => handleDepositClick s t ts

/-- Apply a sequence of popup gestures to the cache at tile `t`. -/
def applyClicks (s : GameState) (t : Tile) (evs : List ClickEv) : GameState :=
  evs.foldl (fun st e => applyClick st t e) s

/-- The reset control from `initResetControl`: reposition to the origin
(running a visibility update), then clear the active map and zero the
balance.  The snapshot store is never touched. -/
def resetGame (luck : String → ℚ) (inRange : ℚ → ℚ → Tile → Bool)
    (s : GameState) : GameState :=
  let s1 := updatePlayerPosition luck inRange OAKES_LAT OAKES_LNG s
  { s1 with activeCaches := [], playerCoins := 0 }

/-- Well-formedness of the active cache stored at tile `t`: count matches
the stack, no coin id is the empty string (ids are `"i:j#serial"` or
`"deposited:..."`), and the cache's own tile fields agree with its key. -/
def goodAt (t : Tile) (c : Cache) : Prop :=
  c.coinCount = c.coins.length ∧ "" ∉ c.coins ∧ c.i = t.1 ∧ c.j = t.2

/-! ### Lemmas about the association lists and the admission loop -/

theorem lookupA_append_left {α : Type} (l l2 : List (Tile × α)) (t : Tile)
    (v : α) (h : lookupA l t = some v) : lookupA (l ++ l2) t = some v := by
  induction l with
  | nil => simp [lookupA] at h
  | cons e rest ih =>
    by_cases he : e.1 = t
    · simp only [lookupA, if_pos he] at h ⊢
      exact h
    · simp only [lookupA, if_neg he] at h ⊢
      exact ih h

theorem lookupA_append_none {α : Type} (l l2 : List (Tile × α)) (t : Tile)
    (h : lookupA l t = none) : lookupA (l ++ l2) t = lookupA l2 t := by
  induction l with
  | nil => rfl
  | cons e rest ih =>
    by_cases he : e.1 = t
    · simp only [lookupA, if_pos he] at h
      exact absurd h (Option.some_ne_none _)
    · simp only [lookupA, if_neg he] at h ⊢
      exact ih h

theorem lookupA_singleton_eq {α : Type} (t : Tile) (v : α) :
    lookupA [(t, v)] t = some v := by
  simp [lookupA]

theorem lookupA_singleton_ne {α : Type} (t u : Tile) (v : α) (h : u ≠ t) :
    lookupA [(u, v)] t = none := by
  simp [lookupA, h]

theorem lookupA_updateMapA {α : Type} :
    ∀ (l : List (Tile × α)) (t : Tile) (v c : α), lookupA l t = some c →
      lookupA (updateMapA l t v) t = some v := by
  intro l
  induction l with
  | nil => intro t v c h; simp [lookupA] at h
  | cons e rest ih =>
    intro t v c h
    by_cases he : e.1 = t
    · simp only [updateMapA, if_pos he, lookupA, if_pos he]
    · simp only [lookupA, if_neg he] at h
      simp only [updateMapA, if_neg he, lookupA, if_neg he]
      exact ih t v c h

theorem lookupA_upsertA {α : Type} :
    ∀ (l : List (Tile × α)) (t : Tile) (v : α),
      lookupA (upsertA l t v) t = some v := by
  intro l
  induction l with
  | nil => intro t v; simp [upsertA, lookupA]
  | cons e rest ih =>
    intro t v
    by_cases he : e.1 = t
    · simp [upsertA, if_pos he, lookupA]
    · simp only [upsertA, if_neg he, lookupA, if_neg he]
      exact ih t v

theorem lookupA_filter_key_out {α : Type} (p : Tile × α → Bool) (t : Tile)
    (hp : ∀ v : α, p (t, v) = false) :
    ∀ l : List (Tile × α), lookupA (l.filter p) t = none := by
  intro l
  induction l with
  | nil => rfl
  | cons e rest ih =>
    by_cases hpe : p e = true
    · rw [List.filter_cons_of_pos hpe]
      have he : e.1 ≠ t := by
        intro hx
        have : p (t, e.2) = true := by
          rw [← hx]
          exact hpe
        rw [hp e.2] at this
        exact Bool.false_ne_true this
      simp only [lookupA, if_neg he]
      exact ih
    · rw [List.filter_cons_of_neg hpe]
      exact ih

theorem lookupA_filter_none {α : Type} (p : Tile × α → Bool) (t : Tile) :
    ∀ l : List (Tile × α), lookupA l t = none →
      lookupA (l.filter p) t = none := by
  intro l
  induction l with
  | nil => intro _; rfl
  | cons e rest ih =>
    intro h
    by_cases he : e.1 = t
    · simp only [lookupA, if_pos he] at h
      exact absurd h (Option.some_ne_none _)
    · simp only [lookupA, if_neg he] at h
      by_cases hpe : p e = true
      · rw [List.filter_cons_of_pos hpe]
        simp only [lookupA, if_neg he]
        exact ih h
      · rw [List.filter_cons_of_neg hpe]
        exact ih h

theorem admitLoop_cons (luck : String → ℚ) (inRange : ℚ → ℚ → Tile → Bool)
    (lat lng : ℚ) (store : List (Tile × CacheMemento))
    (acs : List (Tile × Cache)) (t : Tile) (rest : List Tile) :
    admitLoop luck inRange lat lng store acs (t :: rest) =
      if hasKey acs t || !shouldSpawnCache luck t.1 t.2 then
        admitLoop luck inRange lat lng store acs rest
      else if inRange lat lng t then
        admitLoop luck inRange lat lng store
          (acs ++ [(t, spawnedCache luck store t.1 t.2)]) rest
      else
        admitLoop luck inRange lat lng store acs rest := rfl

theorem admitLoop_extends (luck : String → ℚ) (inRange : ℚ → ℚ → Tile → Bool)
    (lat lng : ℚ) (store : List (Tile × CacheMemento)) :
    ∀ (l : List Tile) (acs : List (Tile × Cache)),
      ∃ ext, admitLoop luck inRange lat lng store acs l = acs ++ ext := by
  intro l
  induction l with
  | nil => intro acs; exact ⟨[], (List.append_nil acs).symm⟩
  | cons t rest ih =>
    intro acs
    rw [admitLoop_cons]
    split_ifs with h1 h2
    · exact ih acs
    · obtain ⟨ext, hext⟩ := ih (acs ++ [(t, spawnedCache luck store t.1 t.2)])
      exact ⟨(t, spawnedCache luck store t.1 t.2) :: ext, by
        rw [hext, List.append_assoc]
        rfl⟩
    · exact ih acs

theorem admitLoop_lookup_some (luck : String → ℚ)
    (inRange : ℚ → ℚ → Tile → Bool) (lat lng : ℚ)
    (store : List (Tile × CacheMemento)) (l : List Tile)
    (acs : List (Tile × Cache)) (t : Tile) (v : Cache)
    (h : lookupA acs t = some v) :
    lookupA (admitLoop luck inRange lat lng store acs l) t = some v := by
  obtain ⟨ext, hext⟩ := admitLoop_extends luck inRange lat lng store l acs
  rw [hext]
  exact lookupA_append_left acs ext t v h

theorem admitLoop_not_added (luck : String → ℚ)
    (inRange : ℚ → ℚ → Tile → Bool) (lat lng : ℚ)
    (store : List (Tile × CacheMemento)) (t : Tile)
    (hout : inRange lat lng t = false) :
    ∀ (l : List Tile) (acs : List (Tile × Cache)), lookupA acs t = none →
      lookupA (admitLoop luck inRange lat lng store acs l) t = none := by
  intro l
  induction l with
  | nil => intro acs h; exact h
  | cons u rest ih =>
    intro acs h
    rw [admitLoop_cons]
    split_ifs with h1 h2
    · exact ih acs h
    · have hne : u ≠ t := by
        intro hx
        rw [hx, hout] at h2
        exact Bool.false_ne_true h2
      apply ih
      rw [lookupA_append_none acs _ t h]
      exact lookupA_singleton_ne t u _ hne
    · exact ih acs h

theorem admitLoop_adds (luck : String → ℚ) (inRange : ℚ → ℚ → Tile → Bool)
    (lat lng : ℚ) (store : List (Tile × CacheMemento)) (t : Tile)
    (hspawn : shouldSpawnCache luck t.1 t.2 = true)
    (hin : inRange lat lng t = true) :
    ∀ (l : List Tile) (acs : List (Tile × Cache)), t ∈ l →
      lookupA acs t = none →
      lookupA (admitLoop luck inRange lat lng store acs l) t =
        some (spawnedCache luck store t.1 t.2) := by
  intro l
  induction l with
  | nil => intro acs hmem; exact absurd hmem (List.not_mem_nil t)
  | cons u rest ih =>
    intro acs hmem hnone
    rw [admitLoop_cons]
    by_cases hut : u = t
    · subst hut
      have hk : hasKey acs u = false := by
        unfold hasKey
        rw [hnone]
        rfl
      rw [if_neg (by rw [hk, hspawn]; simp), if_pos hin]
      apply admitLoop_lookup_some
      rw [lookupA_append_none acs _ u hnone]
      exact lookupA_singleton_eq u _
    · have hmem' : t ∈ rest := by
        rcases List.mem_cons.mp hmem with h | h
        · exact absurd h.symm hut
        · exact h
      split_ifs with h1 h2
      · exact ih acs hmem' hnone
      · apply ih _ hmem'
        rw [lookupA_append_none acs _ t hnone]
        exact lookupA_singleton_ne t u _ hut
      · exact ih acs hmem' hnone

theorem admitLoop_all_inRange (luck : String → ℚ)
    (inRange : ℚ → ℚ → Tile → Bool) (lat lng : ℚ)
    (store : List (Tile × CacheMemento)) :
    ∀ (l : List Tile) (acs : List (Tile × Cache)),
      (∀ e ∈ acs, inRange lat lng e.1 = true) →
      ∀ e ∈ admitLoop luck inRange lat lng store acs l,
        inRange lat lng e.1 = true := by
  intro l
  induction l with
  | nil => intro acs h; exact h
  | cons t rest ih =>
    intro acs h
    rw [admitLoop_cons]
    split_ifs with h1 h2
    · exact ih acs h
    · apply ih
      intro e he
      rcases List.mem_append.mp he with he1 | he1
      · exact h e he1
      · have : e = (t, spawnedCache luck store t.1 t.2) := by simpa using he1
        rw [this]
        exact h2
    · exact ih acs h

theorem admitLoop_covers (luck : String → ℚ) (inRange : ℚ → ℚ → Tile → Bool)
    (lat lng : ℚ) (store : List (Tile × CacheMemento)) (t : Tile)
    (hspawn : shouldSpawnCache luck t.1 t.2 = true)
    (hin : inRange lat lng t = true) (l : List Tile)
    (acs : List (Tile × Cache)) (hmem : t ∈ l) :
    hasKey (admitLoop luck inRange lat lng store acs l) t = true := by
  unfold hasKey
  cases hl : lookupA acs t with
  | some v =>
    rw [admitLoop_lookup_some luck inRange lat lng store l acs t v hl]
    rfl
  | none =>
    rw [admitLoop_adds luck inRange lat lng store t hspawn hin l acs hmem hl]
    rfl

theorem admitLoop_id (luck : String → ℚ) (inRange : ℚ → ℚ → Tile → Bool)
    (lat lng : ℚ) (store : List (Tile × CacheMemento)) :
    ∀ (l : List Tile) (acs : List (Tile × Cache)),
      (∀ t ∈ l, hasKey acs t = true ∨ shouldSpawnCache luck t.1 t.2 = false ∨
        inRange lat lng t = false) →
      admitLoop luck inRange lat lng store acs l = acs := by
  intro l
  induction l with
  | nil => intro acs _; rfl
  | cons t rest ih =>
    intro acs h
    rw [admitLoop_cons]
    have ht := h t (List.mem_cons_self t rest)
    have hrest : ∀ u ∈ rest, hasKey acs u = true ∨
        shouldSpawnCache luck u.1 u.2 = false ∨ inRange lat lng u = false :=
      fun u hu => h u (List.mem_cons_of_mem t hu)
    rcases ht with ht | ht | ht
    · rw [if_pos (by rw [ht]; rfl)]
      exact ih acs hrest
    · rw [if_pos (by rw [ht]; simp)]
      exact ih acs hrest
    · by_cases h1 : hasKey acs t || !shouldSpawnCache luck t.1 t.2
      · rw [if_pos h1]
        exact ih acs hrest
      · rw [if_neg h1, if_neg (by rw [ht]; exact Bool.false_ne_true)]
        exact ih acs hrest

/-! ### Mutation steps save the mutated state to the store -/

theorem depositCoinId_ne_empty (i j : Int) (ts : String) :
    depositCoinId i j ts ≠ "" := by
  intro h
  have hd := congrArg String.data h
  unfold depositCoinId at hd
  simp only [string_data_append] at hd
  simp at hd

theorem handleCollectClick_pos (s : GameState) (t : Tile) (c : Cache)
    (hc : lookupA s.activeCaches t = some c) (hcnil : c.coins ≠ [])
    (hpos : 0 < c.coinCount) (htop : c.coins.getLast hcnil ≠ "") :
    handleCollectClick s t =
      { s with
          activeCaches := updateMapA s.activeCaches t
            { c with coinCount := c.coinCount - 1, coins := c.coins.dropLast },
          playerCoins := s.playerCoins + 1,
          cacheStates := saveCache s.cacheStates
            { c with coinCount := c.coinCount - 1,
                     coins := c.coins.dropLast } } := by
  have hcol : collect c =
      ({ c with coinCount := c.coinCount - 1, coins := c.coins.dropLast },
        some (c.coins.getLast hcnil)) := by
    unfold collect
    rw [if_pos hpos, List.getLast?_eq_getLast _ hcnil]
  unfold handleCollectClick
  rw [hc]
  simp only [hcol, if_neg htop]

theorem handleCollectClick_stuck (s : GameState) (t : Tile) (c : Cache)
    (hc : lookupA s.activeCaches t = some c) (hneg : ¬ 0 < c.coinCount) :
    handleCollectClick s t =
      { s with activeCaches := updateMapA s.activeCaches t c } := by
  have hcol : collect c = (c, none) := by
    unfold collect
    rw [if_neg hneg]
  unfold handleCollectClick
  rw [hc]
  simp only [hcol]

theorem handleDepositClick_pos (s : GameState) (t : Tile) (ts : String)
    (c : Cache) (hc : lookupA s.activeCaches t = some c)
    (hp : 0 < s.playerCoins) :
    handleDepositClick s t ts =
      { s with
          activeCaches := updateMapA s.activeCaches t
            (deposit c (depositCoinId c.i c.j ts)),
          playerCoins := s.playerCoins - 1,
          cacheStates := saveCache s.cacheStates
            (deposit c (depositCoinId c.i c.j ts)) } := by
  unfold handleDepositClick
  rw [hc]
  simp only [if_pos hp]

theorem handleDepositClick_broke (s : GameState) (t : Tile) (ts : String)
    (c : Cache) (hc : lookupA s.activeCaches t = some c)
    (hp : ¬ 0 < s.playerCoins) :
    handleDepositClick s t ts = s := by
  unfold handleDepositClick
  rw [hc]
  simp only [if_neg hp]

theorem lookupA_saveCache_self (store : List (Tile × CacheMemento))
    (c2 : Cache) (t : Tile) (h1 : c2.i = t.1) (h2 : c2.j = t.2) :
    lookupA (saveCache store c2) t = some (createMemento c2) := by
  unfold saveCache
  have hkt : ((c2.i, c2.j) : Tile) = t := by rw [h1, h2]
  rw [hkt]
  exact lookupA_upsertA store t _

theorem click_step (s : GameState) (t : Tile) (ev : ClickEv) (c : Cache)
    (hc : lookupA s.activeCaches t = some c) (hg : goodAt t c) :
    ∃ c2, lookupA (applyClick s t ev).activeCaches t = some c2 ∧
      goodAt t c2 ∧
      ((c2 = c ∧ (applyClick s t ev).cacheStates = s.cacheStates) ∨
        lookupA (applyClick s t ev).cacheStates t = some (createMemento c2)) := by
  obtain ⟨hlen, hnemp, hi, hj⟩ := hg
  cases ev with
  | collectClick =>
    have happ : applyClick s t ClickEv.collectClick = handleCollectClick s t :=
      rfl
    by_cases hpos : 0 < c.coinCount
    · have hcnil : c.coins ≠ [] := by
        intro hx
        rw [hx] at hlen
        simp at hlen
        omega
      have htop : c.coins.getLast hcnil ≠ "" := by
        intro hx
        exact hnemp (hx ▸ List.getLast_mem hcnil)
      rw [happ, handleCollectClick_pos s t c hc hcnil hpos htop]
      refine ⟨{ c with coinCount := c.coinCount - 1, coins := c.coins.dropLast },
        ?_, ⟨?_, ?_, hi, hj⟩, Or.inr ?_⟩
      · exact lookupA_updateMapA s.activeCaches t _ c hc
      · show c.coinCount - 1 = (c.coins.dropLast.length : Int)
        simp only [List.length_dropLast]
        omega
      · intro hx
        exact hnemp (List.dropLast_subset c.coins hx)
      · exact lookupA_saveCache_self s.cacheStates _ t hi hj
    · rw [happ, handleCollectClick_stuck s t c hc hpos]
      exact ⟨c, lookupA_updateMapA s.activeCaches t c c hc,
        ⟨hlen, hnemp, hi, hj⟩, Or.inl ⟨rfl, rfl⟩⟩
  | depositClick ts =>
    have happ : applyClick s t (ClickEv.depositClick ts) =
        handleDepositClick s t ts := rfl
    by_cases hp : 0 < s.playerCoins
    · rw [happ, handleDepositClick_pos s t ts c hc hp]
      refine ⟨deposit c (depositCoinId c.i c.j ts), ?_, ⟨?_, ?_, hi, hj⟩,
        Or.inr ?_⟩
      · exact lookupA_updateMapA s.activeCaches t _ c hc
      · show c.coinCount + 1 =
          ((c.coins ++ [depositCoinId c.i c.j ts]).length : Int)
        simp only [List.length_append, List.length_cons, List.length_nil]
        omega
      · intro hx
        rcases List.mem_append.mp hx with h1 | h1
        · exact hnemp h1
        · have h2 : "" = depositCoinId c.i c.j ts := by simpa using h1
          exact depositCoinId_ne_empty c.i c.j ts h2.symm
      · exact lookupA_saveCache_self s.cacheStates _ t hi hj
    · rw [happ, handleDepositClick_broke s t ts c hc hp]
      exact ⟨c, hc, ⟨hlen, hnemp, hi, hj⟩, Or.inl ⟨rfl, rfl⟩⟩

theorem clicks_preserve (t : Tile) :
    ∀ (evs : List ClickEv) (s : GameState) (c : Cache),
      lookupA s.activeCaches t = some c → goodAt t c →
      ∃ c2, lookupA (applyClicks s t evs).activeCaches t = some c2 ∧
        goodAt t c2 ∧
        ((c2 = c ∧ (applyClicks s t evs).cacheStates = s.cacheStates) ∨
          lookupA (applyClicks s t evs).cacheStates t =
            some (createMemento c2)) := by
  intro evs
  induction evs with
  | nil => intro s c hc hg; exact ⟨c, hc, hg, Or.inl ⟨rfl, rfl⟩⟩
  | cons ev rest ih =>
    intro s c hc hg
    obtain ⟨c1, hc1, hg1, hd1⟩ := click_step s t ev c hc hg
    obtain ⟨c2, hc2, hg2, hd2⟩ := ih (applyClick s t ev) c1 hc1 hg1
    have hfold : applyClicks s t (ev :: rest) =
        applyClicks (applyClick s t ev) t rest := rfl
    refine ⟨c2, by rw [hfold]; exact hc2, hg2, ?_⟩
    rcases hd1 with ⟨he1, hs1⟩ | hs1
    · rcases hd2 with ⟨he2, hs2⟩ | hs2
      · exact Or.inl ⟨he2.trans he1, by rw [hfold, hs2, hs1]⟩
      · exact Or.inr (by rw [hfold]; exact hs2)
    · rcases hd2 with ⟨he2, hs2⟩ | hs2
      · refine Or.inr ?_
        rw [hfold, hs2, he2]
        exact hs1
      · exact Or.inr (by rw [hfold]; exact hs2)

/-! ### Field equations for the visibility update -/

theorem updateVisibleCaches_cacheStates (luck : String → ℚ)
    (inRange : ℚ → ℚ → Tile → Bool) (s : GameState) :
    (updateVisibleCaches luck inRange s).cacheStates = s.cacheStates := rfl

theorem updateVisibleCaches_activeCaches (luck : String → ℚ)
    (inRange : ℚ → ℚ → Tile → Bool) (s : GameState) :
    (updateVisibleCaches luck inRange s).activeCaches =
      admitLoop luck inRange s.playerLat s.playerLng s.cacheStates
        (s.activeCaches.filter (fun e => inRange s.playerLat s.playerLng e.1))
        (candidateTiles s.playerLat s.playerLng) := rfl

theorem updatePlayerPosition_activeCaches (luck : String → ℚ)
    (inRange : ℚ → ℚ → Tile → Bool) (lat lng : ℚ) (s : GameState) :
    (updatePlayerPosition luck inRange lat lng s).activeCaches =
      admitLoop luck inRange lat lng s.cacheStates
        (s.activeCaches.filter (fun e => inRange lat lng e.1))
        (candidateTiles lat lng) := rfl

theorem updatePlayerPosition_cacheStates (luck : String → ℚ)
    (inRange : ℚ → ℚ → Tile → Bool) (lat lng : ℚ) (s : GameState) :
    (updatePlayerPosition luck inRange lat lng s).cacheStates =
      s.cacheStates := rfl

/-- A state already at a fixed point of the visibility update. -/
theorem update_fixed (luck : String → ℚ) (inRange : ℚ → ℚ → Tile → Bool)
    (s : GameState)
    (hA : ∀ e ∈ s.activeCaches, inRange s.playerLat s.playerLng e.1 = true)
    (hcov : ∀ u ∈ candidateTiles s.playerLat s.playerLng,
      shouldSpawnCache luck u.1 u.2 = true →
      inRange s.playerLat s.playerLng u = true →
      hasKey s.activeCaches u = true) :
    updateVisibleCaches luck inRange s = s := by
  have hfilter :
      s.activeCaches.filter (fun e => inRange s.playerLat s.playerLng e.1) =
        s.activeCaches :=
    List.filter_eq_self.mpr hA
  have hloop :
      admitLoop luck inRange s.playerLat s.playerLng s.cacheStates
        s.activeCaches (candidateTiles s.playerLat s.playerLng) =
      s.activeCaches := by
    apply admitLoop_id
    intro u hu
    by_cases hs : shouldSpawnCache luck u.1 u.2 = true
    · by_cases hr : inRange s.playerLat s.playerLng u = true
      · exact Or.inl (hcov u hu hs hr)
      · exact Or.inr (Or.inr ((Bool.not_eq_true _).mp hr))
    · exact Or.inr (Or.inl ((Bool.not_eq_true _).mp hs))
  obtain ⟨pc, plat, plng, acs, store⟩ := s
  simp only [updateVisibleCaches] at *
  rw [hfilter, hloop]

/-! ### Claim C8 -/

/-- C8: the visibility update is idempotent — running it twice (the player
position unchanged, no intervening mutation) returns exactly the state after
one run: the same active cache map (no cache created twice, no token count
changed) and the untouched snapshot store. -/
theorem C8_update_idempotent (luck : String → ℚ)
    (inRange : ℚ → ℚ → Tile → Bool) (s : GameState) :
    updateVisibleCaches luck inRange (updateVisibleCaches luck inRange s) =
      updateVisibleCaches luck inRange s := by
  apply update_fixed
  · intro e he
    refine admitLoop_all_inRange luck inRange s.playerLat s.playerLng
      s.cacheStates (candidateTiles s.playerLat s.playerLng) _ ?_ e he
    intro e2 he2
    exact (List.mem_filter.mp he2).2
  · intro u hu hs hr
    exact admitLoop_covers luck inRange s.playerLat s.playerLng s.cacheStates
      u hs hr (candidateTiles s.playerLat s.playerLng) _ hu

/-! ### Claim C3 -/

/-- C3 (amended): the eviction pass of the visibility update removes every
out-of-range active cache WITHOUT snapshotting it — the update never writes
to the snapshot store at all.  (Snapshots are written only by the
collect/deposit handlers, at mutation time.) -/
theorem C3_eviction_writes_no_snapshot (luck : String → ℚ)
    (inRange : ℚ → ℚ → Tile → Bool) (s : GameState) :
    (updateVisibleCaches luck inRange s).cacheStates = s.cacheStates ∧
    (∀ (t : Tile) (c : Cache), lookupA s.activeCaches t = some c →
      inRange s.playerLat s.playerLng t = false →
      lookupA (updateVisibleCaches luck inRange s).activeCaches t = none) := by
  refine ⟨rfl, ?_⟩
  intro t c _ hout
  rw [updateVisibleCaches_activeCaches]
  apply admitLoop_not_added luck inRange _ _ _ t hout
  apply lookupA_filter_key_out
  intro v
  exact hout

/-- The C3 claim as frozen is false on the code: a concrete active,
never-mutated cache at `(0,0)` that is out of range gets evicted by the
update while the snapshot store (empty before) still holds no snapshot of it
afterwards. -/
theorem C3_counterexample :
    hasKey (GameState.mk 0 0 0 [((0, 0), Cache.mk 0 0 0 [])] []).activeCaches
        (0, 0) = true ∧
    (fun _ _ _ => false : ℚ → ℚ → Tile → Bool) 0 0 (0, 0) = false ∧
    hasKey (updateVisibleCaches (fun _ => 0) (fun _ _ _ => false)
        (GameState.mk 0 0 0 [((0, 0), Cache.mk 0 0 0 [])] [])).activeCaches
        (0, 0) = false ∧
    lookupA (updateVisibleCaches (fun _ => 0) (fun _ _ _ => false)
        (GameState.mk 0 0 0 [((0, 0), Cache.mk 0 0 0 [])] [])).cacheStates
        (0, 0) = none := by
  refine ⟨rfl, rfl, ?_, rfl⟩
  have hnone : lookupA (updateVisibleCaches (fun _ => 0) (fun _ _ _ => false)
      (GameState.mk 0 0 0 [((0, 0), Cache.mk 0 0 0 [])] [])).activeCaches
      (0, 0) = none := by
    rw [updateVisibleCaches_activeCaches]
    apply admitLoop_not_added _ _ _ _ _ _ rfl
    apply lookupA_filter_key_out
    intro v
    rfl
  unfold hasKey
  rw [hnone]
  rfl

/-- Witness for the amended C3 at a concrete one-cache state. -/
theorem C3_witness :
    lookupA (GameState.mk 0 0 0 [((0, 0), Cache.mk 0 0 0 [])] []).activeCaches
        (0, 0) = some (Cache.mk 0 0 0 []) ∧
    (fun _ _ _ => false : ℚ → ℚ → Tile → Bool) 0 0 (0, 0) = false ∧
    lookupA (updateVisibleCaches (fun _ => 0) (fun _ _ _ => false)
        (GameState.mk 0 0 0 [((0, 0), Cache.mk 0 0 0 [])] [])).activeCaches
        (0, 0) = none :=
  ⟨rfl, rfl,
    (C3_eviction_writes_no_snapshot (fun _ => 0) (fun _ _ _ => false)
        (GameState.mk 0 0 0 [((0, 0), Cache.mk 0 0 0 [])] [])).2
      (0, 0) (Cache.mk 0 0 0 []) rfl rfl⟩

/-! ### Claims C1 and C10 -/

/-- The player's own tile is always among the scanned candidates (the
offsets `i = j = 0` of the neighborhood loop). -/
theorem latLongToGrid_mem_candidateTiles (lat lng : ℚ) :
    latLongToGrid lat lng ∈ candidateTiles lat lng := by
  unfold candidateTiles
  apply List.mem_flatMap_of_mem (show (8 : Nat) ∈ List.range 17 by simp)
  norm_num
  refine ⟨8, ⟨8, by norm_num, by norm_num⟩, ?_⟩
  norm_num

/-- C1: a cache that is visible (active at tile `t`), mutated by a sequence
of collect/deposit gestures that changed its state, then evicted by a
position update that puts `t` out of range, and re-admitted by a position
update that puts `t` back in range, is reconstructed with exactly the coin
count and stack left by the mutations — not the freshly-initialized state.
(The mutation handlers save a memento on every effective mutation; eviction
discards the entity; re-admission restores from the stored memento.) -/
theorem C1_mutations_survive_evict_readmit (luck : String → ℚ)
    (inRange : ℚ → ℚ → Tile → Bool) (s : GameState) (t : Tile)
    (c c1 : Cache) (evs : List ClickEv) (lat1 lng1 lat2 lng2 : ℚ)
    (h0 : lookupA s.activeCaches t = some c)
    (hg : goodAt t c)
    (h1 : lookupA (applyClicks s t evs).activeCaches t = some c1)
    (hmut : c1.coinCount ≠ c.coinCount ∨ c1.coins ≠ c.coins)
    (hout : inRange lat1 lng1 t = false)
    (hcand : t ∈ candidateTiles lat2 lng2)
    (hin : inRange lat2 lng2 t = true)
    (hspawn : shouldSpawnCache luck t.1 t.2 = true) :
    lookupA (updatePlayerPosition luck inRange lat1 lng1
        (applyClicks s t evs)).activeCaches t = none ∧
    ∃ c2, lookupA (updatePlayerPosition luck inRange lat2 lng2
        (updatePlayerPosition luck inRange lat1 lng1
          (applyClicks s t evs))).activeCaches t = some c2 ∧
      c2.coinCount = c1.coinCount ∧ c2.coins = c1.coins := by
  obtain ⟨c1', hc1', hg1', hd⟩ := clicks_preserve t evs s c h0 hg
  have hceq : c1' = c1 := by
    rw [hc1'] at h1
    exact Option.some.inj h1
  subst hceq
  have hstore : lookupA (applyClicks s t evs).cacheStates t =
      some (createMemento c1') := by
    rcases hd with ⟨he, _⟩ | hst
    · exfalso
      rcases hmut with hm | hm
      · exact hm (by rw [he])
      · exact hm (by rw [he])
    · exact hst
  have h2none : lookupA (updatePlayerPosition luck inRange lat1 lng1
      (applyClicks s t evs)).activeCaches t = none := by
    rw [updatePlayerPosition_activeCaches]
    apply admitLoop_not_added luck inRange lat1 lng1 _ t hout
    apply lookupA_filter_key_out
    intro v
    exact hout
  refine ⟨h2none, ?_⟩
  have h3 : lookupA (updatePlayerPosition luck inRange lat2 lng2
      (updatePlayerPosition luck inRange lat1 lng1
        (applyClicks s t evs))).activeCaches t =
      some (spawnedCache luck
        (updatePlayerPosition luck inRange lat1 lng1
          (applyClicks s t evs)).cacheStates t.1 t.2) := by
    rw [updatePlayerPosition_activeCaches]
    apply admitLoop_adds luck inRange lat2 lng2 _ t hspawn hin _ _ hcand
    exact lookupA_filter_none _ t _ h2none
  have hsp : spawnedCache luck
      (updatePlayerPosition luck inRange lat1 lng1
        (applyClicks s t evs)).cacheStates t.1 t.2 =
      restoreFromMemento (mkCache luck t.1 t.2) (createMemento c1') := by
    unfold spawnedCache
    rw [show lookupA (updatePlayerPosition luck inRange lat1 lng1
        (applyClicks s t evs)).cacheStates ((t.1, t.2) : Tile) =
        some (createMemento c1') from hstore]
  refine ⟨restoreFromMemento (mkCache luck t.1 t.2) (createMemento c1'),
    ?_, rfl, rfl⟩
  rw [h3, hsp]

/-- Witness for C1: a one-coin deposit on the (initially empty) cache at
`(0, 0)` under the hash `fun _ => 0`, evicted by a range predicate that is
true only at latitude `0`, then re-admitted at the origin. -/
theorem C1_witness :
    lookupA (GameState.mk 1 0 0 [((0, 0), mkCache (fun _ => 0) 0 0)]
        []).activeCaches (0, 0) = some (mkCache (fun _ => 0) 0 0) ∧
    goodAt (0, 0) (mkCache (fun _ => 0) 0 0) ∧
    lookupA (applyClicks (GameState.mk 1 0 0
        [((0, 0), mkCache (fun _ => 0) 0 0)] []) (0, 0)
        [ClickEv.depositClick "now"]).activeCaches (0, 0) =
      some (Cache.mk 0 0 1 ["deposited:0:0:now"]) ∧
    ((Cache.mk 0 0 1 ["deposited:0:0:now"]).coinCount ≠
        (mkCache (fun _ => 0) 0 0).coinCount ∨
      (Cache.mk 0 0 1 ["deposited:0:0:now"]).coins ≠
        (mkCache (fun _ => 0) 0 0).coins) ∧
    (fun lat _ _ => decide (lat = 0) : ℚ → ℚ → Tile → Bool) 1 0 (0, 0) =
      false ∧
    ((0, 0) : Tile) ∈ candidateTiles 0 0 ∧
    (fun lat _ _ => decide (lat = 0) : ℚ → ℚ → Tile → Bool) 0 0 (0, 0) =
      true ∧
    shouldSpawnCache (fun _ => 0) 0 0 = true ∧
    (lookupA (updatePlayerPosition (fun _ => 0)
        (fun lat _ _ => decide (lat = 0)) 1 0
        (applyClicks (GameState.mk 1 0 0
          [((0, 0), mkCache (fun _ => 0) 0 0)] []) (0, 0)
          [ClickEv.depositClick "now"])).activeCaches (0, 0) = none ∧
      ∃ c2, lookupA (updatePlayerPosition (fun _ => 0)
          (fun lat _ _ => decide (lat = 0)) 0 0
          (updatePlayerPosition (fun _ => 0)
            (fun lat _ _ => decide (lat = 0)) 1 0
            (applyClicks (GameState.mk 1 0 0
              [((0, 0), mkCache (fun _ => 0) 0 0)] []) (0, 0)
              [ClickEv.depositClick "now"]))).activeCaches (0, 0) = some c2 ∧
        c2.coinCount = (Cache.mk 0 0 1 ["deposited:0:0:now"]).coinCount ∧
        c2.coins = (Cache.mk 0 0 1 ["deposited:0:0:now"]).coins) := by
  have hmk : mkCache (fun _ => (0 : ℚ)) 0 0 = Cache.mk 0 0 0 [] := by
    unfold mkCache
    simp
  have hcand : ((0, 0) : Tile) ∈ candidateTiles 0 0 := by
    have h00 : latLongToGrid 0 0 = ((0, 0) : Tile) := by
      unfold latLongToGrid
      simp
    rw [← h00]
    exact latLongToGrid_mem_candidateTiles 0 0
  have hout : (fun lat _ _ => decide (lat = 0) : ℚ → ℚ → Tile → Bool) 1 0
      (0, 0) = false := by simp
  have hin : (fun lat _ _ => decide (lat = 0) : ℚ → ℚ → Tile → Bool) 0 0
      (0, 0) = true := by simp
  have hspawn : shouldSpawnCache (fun _ => 0) 0 0 = true := by
    unfold shouldSpawnCache CACHE_SPAWN_PROBABILITY
    norm_num
  have h0 : lookupA (GameState.mk 1 0 0 [((0, 0), mkCache (fun _ => 0) 0 0)]
      []).activeCaches (0, 0) = some (mkCache (fun _ => 0) 0 0) := by
    rw [hmk]
    rfl
  have hg : goodAt (0, 0) (mkCache (fun _ => 0) 0 0) := by
    rw [hmk]
    unfold goodAt
    refine ⟨by simp, by simp, rfl, rfl⟩
  have h1 : lookupA (applyClicks (GameState.mk 1 0 0
      [((0, 0), mkCache (fun _ => 0) 0 0)] []) (0, 0)
      [ClickEv.depositClick "now"]).activeCaches (0, 0) =
      some (Cache.mk 0 0 1 ["deposited:0:0:now"]) := by
    rw [hmk]
    rfl
  have hmut : (Cache.mk 0 0 1 ["deposited:0:0:now"]).coinCount ≠
      (mkCache (fun _ => 0) 0 0).coinCount ∨
      (Cache.mk 0 0 1 ["deposited:0:0:now"]).coins ≠
        (mkCache (fun _ => 0) 0 0).coins := by
    rw [hmk]
    exact Or.inl (by decide)
  exact ⟨h0, hg, h1, hmut, hout, hcand, hin, hspawn,
    C1_mutations_survive_evict_readmit (fun _ => 0)
      (fun lat _ _ => decide (lat = 0)) _ (0, 0) _ _ _ 1 0 0 0
      h0 hg h1 hmut hout hcand hin hspawn⟩

/-- C10: the reset control empties the active-cache map, zeroes the player
balance and returns the position to the origin, but leaves the snapshot
store completely unchanged; consequently any cache whose memento is in the
store is reconstructed in its mutated state — not freshly initialized —
when its tile re-enters the visibility window after the reset. -/
theorem C10_reset_preserves_store (luck : String → ℚ)
    (inRange : ℚ → ℚ → Tile → Bool) (s : GameState) :
    (resetGame luck inRange s).activeCaches = [] ∧
    (resetGame luck inRange s).playerCoins = 0 ∧
    (resetGame luck inRange s).playerLat = OAKES_LAT ∧
    (resetGame luck inRange s).playerLng = OAKES_LNG ∧
    (resetGame luck inRange s).cacheStates = s.cacheStates ∧
    (∀ (t : Tile) (m : CacheMemento) (lat2 lng2 : ℚ),
      lookupA s.cacheStates t = some m →
      t ∈ candidateTiles lat2 lng2 →
      inRange lat2 lng2 t = true →
      shouldSpawnCache luck t.1 t.2 = true →
      ∃ c2, lookupA (updatePlayerPosition luck inRange lat2 lng2
          (resetGame luck inRange s)).activeCaches t = some c2 ∧
        c2.coinCount = m.coinCount ∧ c2.coins = m.coins) := by
  refine ⟨rfl, rfl, rfl, rfl, rfl, ?_⟩
  intro t m lat2 lng2 hm hcand hin hspawn
  have h3 : lookupA (updatePlayerPosition luck inRange lat2 lng2
      (resetGame luck inRange s)).activeCaches t =
      some (spawnedCache luck (resetGame luck inRange s).cacheStates
        t.1 t.2) := by
    rw [updatePlayerPosition_activeCaches]
    apply admitLoop_adds luck inRange lat2 lng2 _ t hspawn hin _ _ hcand
    rw [show (resetGame luck inRange s).activeCaches = [] from rfl]
    rfl
  have hsp : spawnedCache luck (resetGame luck inRange s).cacheStates
      t.1 t.2 = restoreFromMemento (mkCache luck t.1 t.2) m := by
    unfold spawnedCache
    rw [show lookupA (resetGame luck inRange s).cacheStates
        ((t.1, t.2) : Tile) = some m from hm]
  exact ⟨restoreFromMemento (mkCache luck t.1 t.2) m,
    by rw [h3, hsp], rfl, rfl⟩

/-- Witness for C10: a store holding a mutated one-coin memento for `(0, 0)`
is preserved across a reset and restored on the next update at the origin. -/
theorem C10_witness :
    lookupA (GameState.mk 0 0 0 []
        [((0, 0), CacheMemento.mk 0 0 1 ["deposited:0:0:now"])]).cacheStates
        (0, 0) = some (CacheMemento.mk 0 0 1 ["deposited:0:0:now"]) ∧
    ((0, 0) : Tile) ∈ candidateTiles 0 0 ∧
    (fun _ _ _ => true : ℚ → ℚ → Tile → Bool) 0 0 (0, 0) = true ∧
    shouldSpawnCache (fun _ => 0) 0 0 = true ∧
    (∃ c2, lookupA (updatePlayerPosition (fun _ => 0) (fun _ _ _ => true) 0 0
        (resetGame (fun _ => 0) (fun _ _ _ => true)
          (GameState.mk 0 0 0 []
            [((0, 0),
              CacheMemento.mk 0 0 1 ["deposited:0:0:now"])]))).activeCaches
        (0, 0) = some c2 ∧
      c2.coinCount = (CacheMemento.mk 0 0 1 ["deposited:0:0:now"]).coinCount ∧
      c2.coins = (CacheMemento.mk 0 0 1 ["deposited:0:0:now"]).coins) := by
  have hcand : ((0, 0) : Tile) ∈ candidateTiles 0 0 := by
    have h00 : latLongToGrid 0 0 = ((0, 0) : Tile) := by
      unfold latLongToGrid
      simp
    rw [← h00]
    exact latLongToGrid_mem_candidateTiles 0 0
  have hspawn : shouldSpawnCache (fun _ => 0) 0 0 = true := by
    unfold shouldSpawnCache CACHE_SPAWN_PROBABILITY
    norm_num
  exact ⟨rfl, hcand, rfl, hspawn,
    (C10_reset_preserves_store (fun _ => 0) (fun _ _ _ => true)
        (GameState.mk 0 0 0 []
          [((0, 0), CacheMemento.mk 0 0 1 ["deposited:0:0:now"])])).2.2.2.2.2
      (0, 0) (CacheMemento.mk 0 0 1 ["deposited:0:0:now"]) 0 0
      rfl hcand rfl hspawn⟩

end Demo3
